import Mathlib

/-!
# Verification of the `DbSeeder` builder
  (src/exercises/09-databaseSeeder.code.ts)

The source defines a fluent builder `DbSeeder` holding two plain JS objects
`users : Record<string, User>` and `posts : Record<string, Post>`, both
initialised to `{}`.  `addUser(id, user)` executes `this.users[id] = {...user, id}`
and returns `this`; `addPost(id, post)` executes `this.posts[id] = {...post, id}`
and returns `this`.  `transact()` returns the object literal
`{users: this.users, posts: this.posts}` — note it returns the *live*
references, not copies, and performs no mutation of its own.

We embed the runtime behaviour at two levels:

* a *pure state* model (`DbSeeder` below): the builder state is the pair of
  its two string-keyed collections, modelled as association lists with the
  JS-object assignment semantics (assigning to an existing key overwrites in
  place, assigning to a fresh key appends);
* a *heap* model (`Heap`, `SeederRef`): JS objects live at addresses, the
  builder handle and the snapshot returned by `transact` hold addresses, and
  `this.users[id] = ...` is a store into the heap.  This level makes the
  reference/aliasing behaviour (`return this`, snapshot sharing the live
  collections) provable rather than assumed.

`transact` is `async` in the source; it performs no awaiting and no real
database work ("PSEUDOCODE" comment), so the promise is modelled as the value
it resolves to.
-/

set_option autoImplicit false

namespace DbSeederSpec

/-- `interface User { id; name }` from the source. -/
structure User where
  id : String
  name : String
deriving DecidableEq

/-- `interface Post { id; title; authorId }` from the source. -/
structure Post where
  id : String
  title : String
  authorId : String
deriving DecidableEq

/-- `Omit<User, "id">` — the `user` argument of `addUser`. -/
structure UserData where
  name : String
deriving DecidableEq

/-- `Omit<Post, "id">` — the `post` argument of `addPost`. -/
structure PostData where
  title : String
  authorId : String
deriving DecidableEq

/-- The record `{...user, id: id}` built by `addUser`. -/
def mkUser (id : String) (user : UserData) : User :=
  ⟨id, user.name⟩

/-- The record `{...post, id}` built by `addPost`. -/
def mkPost (id : String) (post : PostData) : Post :=
  ⟨id, post.title, post.authorId⟩

/-- JS object property assignment `obj[k] = v` on a string-keyed record:
if the key is already present its value is overwritten (keeping its
position), otherwise the new pair is appended. -/
def objInsert {α : Type} (m : List (String × α)) (k : String) (v : α) :
    List (String × α) :=
  match m with
  | [] => [(k, v)]
  | (k', v') :: rest =>
      if k' = k then (k, v) :: rest else (k', v') :: objInsert rest k v

/-- JS object property read `obj[k]`: the value stored under `k`, or
`undefined` (`none`) when the key is absent. -/
def objLookup {α : Type} : List (String × α) → String → Option α
  | [], _ => none
  | (k', v) :: rest, k => if k' = k then some v else objLookup rest k

/-- Deep equality of two string-keyed JS objects: every key reads back the
same value (in particular both objects have the same key set). -/
def objEquiv {α : Type} (m1 m2 : List (String × α)) : Prop :=
  ∀ k, objLookup m1 k = objLookup m2 k

/-- The runtime state of a `DbSeeder` instance: its two collections
(`public users = {}` and `public posts = {}` in the source). -/
structure DbSeeder where
  users : List (String × User)
  posts : List (String × Post)
deriving DecidableEq

/-- `new DbSeeder()`: both collections start empty. -/
def DbSeeder.new : DbSeeder :=
  ⟨[], []⟩

/-- State effect of `addUser(id, user)`:
`this.users[id] = {...user, id: id}`. -/
def DbSeeder.addUser (s : DbSeeder) (id : String) (user : UserData) : DbSeeder :=
  { s with users := objInsert s.users id (mkUser id user) }

/-- State effect of `addPost(id, post)`: `this.posts[id] = {...post, id}`. -/
def DbSeeder.addPost (s : DbSeeder) (id : String) (post : PostData) : DbSeeder :=
  { s with posts := objInsert s.posts id (mkPost id post) }

/-- The value of the object literal `{users: this.users, posts: this.posts}`
returned by `transact()`.  At the pure level this is the content of the
snapshot; the aliasing of the underlying references is treated in the heap
model below. -/
structure Snapshot where
  users : List (String × User)
  posts : List (String × Post)
deriving DecidableEq

/-- `transact()`: reads (and does not modify) the builder state, returning
both collections.  The source's "actually add users/posts to database" is
explicit pseudocode and performs nothing. -/
def DbSeeder.transact (s : DbSeeder) : Snapshot :=
  ⟨s.users, s.posts⟩

/-- Deep equality of two snapshots: both collections deep-equal. -/
def snapEquiv (s1 s2 : Snapshot) : Prop :=
  objEquiv s1.users s2.users ∧ objEquiv s1.posts s2.posts

/-- One add-operation performed on a builder: either an `addUser` call or an
`addPost` call, with its arguments. -/
inductive Op where
  | addUser (id : String) (data : UserData)
  | addPost (id : String) (data : PostData)
deriving DecidableEq

/-- The state effect of one operation. -/
def applyOp (s : DbSeeder) : Op → DbSeeder
  | .addUser id d => s.addUser id d
  | .addPost id d => s.addPost id d

/-- Run a sequence of add-operations from a given builder state. -/
def runFrom (s : DbSeeder) : List Op → DbSeeder
  | [] => s
  | op :: rest => runFrom (applyOp s op) rest

/-- Run a sequence of add-operations on a newly created `DbSeeder`. -/
def run (ops : List Op) : DbSeeder :=
  runFrom DbSeeder.new ops

/-- `true` exactly on `addUser` operations. -/
def Op.isUser : Op → Bool
  | .addUser _ _ => true
  | .addPost _ _ => false

/-- `true` exactly on `addPost` operations. -/
def Op.isPost : Op → Bool
  | .addUser _ _ => false
  | .addPost _ _ => true

/-- The identifiers of the `addUser` calls in a sequence, in order. -/
def userIds (ops : List Op) : List String :=
  ops.filterMap fun op =>
    match op with
    | .addUser id _ => some id
    | .addPost _ _ => none

/-- The identifiers of the `addPost` calls in a sequence, in order. -/
def postIds (ops : List Op) : List String :=
  ops.filterMap fun op =>
    match op with
    | .addUser _ _ => none
    | .addPost id _ => some id

/-- The `data` payloads of the `addUser` calls targeting identifier `k`,
in call order. -/
def userWrites (ops : List Op) (k : String) : List UserData :=
  ops.filterMap fun op =>
    match op with
    | .addUser id d => if id = k then some d else none
    | .addPost _ _ => none

/-- The `data` payloads of the `addPost` calls targeting identifier `k`,
in call order. -/
def postWrites (ops : List Op) (k : String) : List PostData :=
  ops.filterMap fun op =>
    match op with
    | .addUser _ _ => none
    | .addPost id d => if id = k then some d else none

/-- The payload of the last `addUser` call targeting `k`, if any. -/
def lastUserWrite (ops : List Op) (k : String) : Option UserData :=
  (userWrites ops k).getLast?

/-- The payload of the last `addPost` call targeting `k`, if any. -/
def lastPostWrite (ops : List Op) (k : String) : Option PostData :=
  (postWrites ops k).getLast?

/-! ## Heap model

JS objects are reference values.  `new DbSeeder()` allocates two fresh empty
objects (for `users` and `posts`); `addUser`/`addPost` store into them through
the handle; `transact()` returns a record holding the *same two references*.
We model the heap as two address-indexed stores of collections. -/

/-- The part of the JS heap relevant to the seeder: the allocated
users-collection objects and posts-collection objects, addressed by index. -/
structure Heap where
  userObjs : List (List (String × User))
  postObjs : List (List (String × Post))
deriving DecidableEq

/-- A `DbSeeder` handle: references to its `users` and `posts` objects. -/
structure SeederRef where
  usersAddr : Nat
  postsAddr : Nat
deriving DecidableEq

/-- `new DbSeeder()` in the heap model: allocate two fresh empty objects and
return the handle to them. -/
def Heap.allocSeeder (h : Heap) : Heap × SeederRef :=
  (⟨h.userObjs ++ [[]], h.postObjs ++ [[]]⟩,
   ⟨h.userObjs.length, h.postObjs.length⟩)

/-- Read the users object at an address (out-of-range reads give `{}`;
handles produced by `allocSeeder` are always in range). -/
def Heap.readUsers (h : Heap) (a : Nat) : List (String × User) :=
  h.userObjs.getD a []

/-- Read the posts object at an address. -/
def Heap.readPosts (h : Heap) (a : Nat) : List (String × Post) :=
  h.postObjs.getD a []

/-- The builder state currently observable through a handle. -/
def stateAt (h : Heap) (r : SeederRef) : DbSeeder :=
  ⟨h.readUsers r.usersAddr, h.readPosts r.postsAddr⟩

/-- Heap effect and result of `addUser(id, user)` through handle `r`:
`this.users[id] = {...user, id}` stores into the referenced object, and the
method returns `this` — the very same handle. -/
def addUserH (h : Heap) (r : SeederRef) (id : String) (user : UserData) :
    Heap × SeederRef :=
  (⟨h.userObjs.set r.usersAddr (objInsert (h.readUsers r.usersAddr) id (mkUser id user)),
    h.postObjs⟩, r)

/-- Heap effect and result of `addPost(id, post)` through handle `r`. -/
def addPostH (h : Heap) (r : SeederRef) (id : String) (post : PostData) :
    Heap × SeederRef :=
  (⟨h.userObjs,
    h.postObjs.set r.postsAddr (objInsert (h.readPosts r.postsAddr) id (mkPost id post))⟩, r)

/-- One operation through a handle, returning the new heap and the handle
the call returns. -/
def applyOpH (h : Heap) (r : SeederRef) : Op → Heap × SeederRef
  | .addUser id d => addUserH h r id d
  | .addPost id d => addPostH h r id d

/-- Run a sequence of operations all through the fixed handle `r`
(as when the caller keeps using one saved handle). -/
def runH (h : Heap) (r : SeederRef) : List Op → Heap
  | [] => h
  | op :: rest => runH (applyOpH h r op).1 r rest

/-- Run a sequence of operations as a fluent chain: each call is made on the
handle returned by the previous call. -/
def chainH (h : Heap) (r : SeederRef) : List Op → Heap × SeederRef
  | [] => (h, r)
  | op :: rest =>
      let hr := applyOpH h r op
      chainH hr.1 hr.2 rest

/-- The value returned by `transact()` through handle `r`: an object holding
the same two references as the builder (`{users: this.users, posts: this.posts}`
copies the *references*, not the objects). -/
structure SnapshotRef where
  usersAddr : Nat
  postsAddr : Nat
deriving DecidableEq

/-- `transact()` in the heap model: no heap mutation, result shares the
builder's references. -/
def transactH (r : SeederRef) : SnapshotRef :=
  ⟨r.usersAddr, r.postsAddr⟩

/-- Dereference a snapshot in a heap: the entries currently observable
through it. -/
def readSnapshot (h : Heap) (s : SnapshotRef) : Snapshot :=
  ⟨h.readUsers s.usersAddr, h.readPosts s.postsAddr⟩

/-- The category and identifier targeted by an operation (`false` = users,
`true` = posts). -/
def opKey : Op → Bool × String
  | .addUser id _ => (false, id)
  | .addPost id _ => (true, id)

/-- The snapshot holds, in the operation's category under the operation's
identifier, exactly the record `{...data, id}` of that operation. -/
def opEntry (snap : Snapshot) : Op → Prop
  | .addUser id d => objLookup snap.users id = some (mkUser id d)
  | .addPost id d => objLookup snap.posts id = some (mkPost id d)

/-! ## Basic lemmas about the collection operations -/

theorem objLookup_insert_self {α : Type} (m : List (String × α)) (k : String) (v : α) :
    objLookup (objInsert m k v) k = some v := by
  induction m with
  | nil => simp [objInsert, objLookup]
  | cons p rest ih =>
      obtain ⟨k', v'⟩ := p
      by_cases h : k' = k
      · simp [objInsert, h, objLookup]
      · simp [objInsert, h, objLookup, ih]

theorem objLookup_insert_ne {α : Type} (m : List (String × α)) (k k' : String) (v : α)
    (h : k' ≠ k) : objLookup (objInsert m k v) k' = objLookup m k' := by
  have hne : ¬ k = k' := fun hk => h hk.symm
  induction m with
  | nil => simp [objInsert, objLookup, hne]
  | cons p rest ih =>
      obtain ⟨k0, v0⟩ := p
      by_cases h0 : k0 = k
      · subst h0
        simp [objInsert, objLookup, hne]
      · simp [objInsert, h0, objLookup, ih]

/-- `getLast?` of a cons, expressed through the tail's `getLast?`. -/
theorem getLast?_cons_eq {α : Type} (a : α) (l : List α) :
    (a :: l).getLast? =
      match l.getLast? with
      | some x => some x
      | none => some a := by
  cases l with
  | nil => rfl
  | cons b t =>
      rw [List.getLast?_cons_cons]
      cases hl : (b :: t).getLast? with
      | none => simp [List.getLast?_eq_none_iff] at hl
      | some x => rfl

/-- Unfolding `lastUserWrite` one operation at a time: the later operations
(the tail) take precedence, the head only matters when no later `addUser`
targets `k`. -/
theorem lastUserWrite_cons (op : Op) (rest : List Op) (k : String) :
    lastUserWrite (op :: rest) k =
      match lastUserWrite rest k with
      | some d => some d
      | none =>
          match op with
          | .addUser id d => if id = k then some d else none
          | .addPost _ _ => none := by
  cases op with
  | addUser id d =>
      by_cases h : id = k
      · have hw : userWrites (Op.addUser id d :: rest) k = d :: userWrites rest k := by
          simp [userWrites, h]
        simp only [lastUserWrite, hw]
        rw [getLast?_cons_eq]
        cases hrest : (userWrites rest k).getLast? <;> simp [h]
      · have hw : userWrites (Op.addUser id d :: rest) k = userWrites rest k := by
          simp [userWrites, h]
        simp only [lastUserWrite, hw]
        cases hrest : (userWrites rest k).getLast? <;> simp [h]
  | addPost id d =>
      have hw : userWrites (Op.addPost id d :: rest) k = userWrites rest k := by
        simp [userWrites]
      simp only [lastUserWrite, hw]
      cases hrest : (userWrites rest k).getLast? <;> rfl

/-- Unfolding `lastPostWrite` one operation at a time. -/
theorem lastPostWrite_cons (op : Op) (rest : List Op) (k : String) :
    lastPostWrite (op :: rest) k =
      match lastPostWrite rest k with
      | some d => some d
      | none =>
          match op with
          | .addUser _ _ => none
          | .addPost id d => if id = k then some d else none := by
  cases op with
  | addUser id d =>
      have hw : postWrites (Op.addUser id d :: rest) k = postWrites rest k := by
        simp [postWrites]
      simp only [lastPostWrite, hw]
      cases hrest : (postWrites rest k).getLast? <;> rfl
  | addPost id d =>
      by_cases h : id = k
      · have hw : postWrites (Op.addPost id d :: rest) k = d :: postWrites rest k := by
          simp [postWrites, h]
        simp only [lastPostWrite, hw]
        rw [getLast?_cons_eq]
        cases hrest : (postWrites rest k).getLast? <;> simp [h]
      · have hw : postWrites (Op.addPost id d :: rest) k = postWrites rest k := by
          simp [postWrites, h]
        simp only [lastPostWrite, hw]
        cases hrest : (postWrites rest k).getLast? <;> simp [h]

/-- Central characterization of the users collection: after running any
sequence of operations from any starting state, the record stored under key
`k` is `{...d, id: k}` for `d` the payload of the last `addUser(k, d)` call,
and the starting state's record when no such call occurred. -/
theorem runFrom_users_lookup (ops : List Op) (s : DbSeeder) (k : String) :
    objLookup (runFrom s ops).users k =
      match lastUserWrite ops k with
      | some d => some (mkUser k d)
      | none => objLookup s.users k := by
  induction ops generalizing s with
  | nil => simp [runFrom, lastUserWrite, userWrites]
  | cons op rest ih =>
      simp only [runFrom]
      rw [ih, lastUserWrite_cons]
      cases hrest : lastUserWrite rest k with
      | some d => rfl
      | none =>
          cases op with
          | addUser id d =>
              by_cases h : id = k
              · subst h
                simp [applyOp, DbSeeder.addUser, objLookup_insert_self]
              · simp [applyOp, DbSeeder.addUser,
                  objLookup_insert_ne s.users id k (mkUser id d) (fun hk => h hk.symm), h]
          | addPost id d =>
              simp [applyOp, DbSeeder.addPost]

/-- Central characterization of the posts collection, symmetric to
`runFrom_users_lookup`. -/
theorem runFrom_posts_lookup (ops : List Op) (s : DbSeeder) (k : String) :
    objLookup (runFrom s ops).posts k =
      match lastPostWrite ops k with
      | some d => some (mkPost k d)
      | none => objLookup s.posts k := by
  induction ops generalizing s with
  | nil => simp [runFrom, lastPostWrite, postWrites]
  | cons op rest ih =>
      simp only [runFrom]
      rw [ih, lastPostWrite_cons]
      cases hrest : lastPostWrite rest k with
      | some d => rfl
      | none =>
          cases op with
          | addUser id d =>
              simp [applyOp, DbSeeder.addUser]
          | addPost id d =>
              by_cases h : id = k
              · subst h
                simp [applyOp, DbSeeder.addPost, objLookup_insert_self]
              · simp [applyOp, DbSeeder.addPost,
                  objLookup_insert_ne s.posts id k (mkPost id d) (fun hk => h hk.symm), h]

/-- Specialisation to a freshly created seeder: the stored record is exactly
determined by the last write, with absent keys reading `undefined`. -/
theorem run_users_lookup (ops : List Op) (k : String) :
    objLookup (run ops).users k = (lastUserWrite ops k).map (mkUser k) := by
  rw [run, runFrom_users_lookup]
  cases lastUserWrite ops k with
  | some d => rfl
  | none => rfl

theorem run_posts_lookup (ops : List Op) (k : String) :
    objLookup (run ops).posts k = (lastPostWrite ops k).map (mkPost k) := by
  rw [run, runFrom_posts_lookup]
  cases lastPostWrite ops k with
  | some d => rfl
  | none => rfl

/-! ## Frame lemmas: each category is touched only by its own operations -/

theorem addUser_posts (s : DbSeeder) (id : String) (d : UserData) :
    (s.addUser id d).posts = s.posts := rfl

theorem addPost_users (s : DbSeeder) (id : String) (d : PostData) :
    (s.addPost id d).users = s.users := rfl

/-- The evolution of the users collection depends only on the users
collection of the starting state. -/
theorem runFrom_users_congr (s1 s2 : DbSeeder) (ops : List Op)
    (h : s1.users = s2.users) :
    (runFrom s1 ops).users = (runFrom s2 ops).users := by
  induction ops generalizing s1 s2 with
  | nil => exact h
  | cons op rest ih =>
      simp only [runFrom]
      apply ih
      cases op with
      | addUser id d => simp [applyOp, DbSeeder.addUser, h]
      | addPost id d => simp [applyOp, DbSeeder.addPost, h]

theorem runFrom_posts_congr (s1 s2 : DbSeeder) (ops : List Op)
    (h : s1.posts = s2.posts) :
    (runFrom s1 ops).posts = (runFrom s2 ops).posts := by
  induction ops generalizing s1 s2 with
  | nil => exact h
  | cons op rest ih =>
      simp only [runFrom]
      apply ih
      cases op with
      | addUser id d => simp [applyOp, DbSeeder.addUser, h]
      | addPost id d => simp [applyOp, DbSeeder.addPost, h]

/-- The users collection is exactly determined by the subsequence of
`addUser` operations. -/
theorem runFrom_users_filter (s : DbSeeder) (ops : List Op) :
    (runFrom s ops).users = (runFrom s (ops.filter Op.isUser)).users := by
  induction ops generalizing s with
  | nil => rfl
  | cons op rest ih =>
      cases op with
      | addUser id d =>
          simp only [List.filter_cons, Op.isUser, if_pos rfl, runFrom]
          exact ih (applyOp s (Op.addUser id d))
      | addPost id d =>
          simp only [List.filter_cons, Op.isUser, runFrom]
          rw [runFrom_users_congr (applyOp s (Op.addPost id d)) s rest rfl]
          exact ih s

theorem runFrom_posts_filter (s : DbSeeder) (ops : List Op) :
    (runFrom s ops).posts = (runFrom s (ops.filter Op.isPost)).posts := by
  induction ops generalizing s with
  | nil => rfl
  | cons op rest ih =>
      cases op with
      | addPost id d =>
          simp only [List.filter_cons, Op.isPost, if_pos rfl, runFrom]
          exact ih (applyOp s (Op.addPost id d))
      | addUser id d =>
          simp only [List.filter_cons, Op.isPost, runFrom]
          rw [runFrom_posts_congr (applyOp s (Op.addUser id d)) s rest rfl]
          exact ih s

/-! ## Presence of every inserted identifier -/

theorem lastUserWrite_isSome_of_mem (ops : List Op) (id : String) (d : UserData)
    (hmem : Op.addUser id d ∈ ops) : (lastUserWrite ops id).isSome = true := by
  induction ops with
  | nil => simp at hmem
  | cons op rest ih =>
      rw [lastUserWrite_cons]
      cases hrest : lastUserWrite rest id with
      | some d' => rfl
      | none =>
          rcases List.mem_cons.mp hmem with hop | hop

          · subst hop
            simp
          · have := ih hop
            rw [hrest] at this
            simp at this

theorem lastPostWrite_isSome_of_mem (ops : List Op) (id : String) (d : PostData)
    (hmem : Op.addPost id d ∈ ops) : (lastPostWrite ops id).isSome = true := by
  induction ops with
  | nil => simp at hmem
  | cons op rest ih =>
      rw [lastPostWrite_cons]
      cases hrest : lastPostWrite rest id with
      | some d' => rfl
      | none =>
          rcases List.mem_cons.mp hmem with hop | hop
          · subst hop
            simp
          · have := ih hop
            rw [hrest] at this
            simp at this

/-! ## Order-independence machinery -/

theorem userWrites_eq_nil_of_not_mem (ops : List Op) (k : String)
    (h : k ∉ userIds ops) : userWrites ops k = [] := by
  induction ops with
  | nil => rfl
  | cons op rest ih =>
      cases op with
      | addUser id d =>
          have hids : userIds (Op.addUser id d :: rest) = id :: userIds rest := by
            simp [userIds]
          rw [hids] at h
          have hne : ¬ id = k := fun hk => h (hk ▸ List.mem_cons_self _ _)
          have hrest : k ∉ userIds rest := fun hk => h (List.mem_cons_of_mem _ hk)
          have hw : userWrites (Op.addUser id d :: rest) k = userWrites rest k := by
            simp [userWrites, hne]
          rw [hw]
          exact ih hrest
      | addPost id d =>
          have hids : userIds (Op.addPost id d :: rest) = userIds rest := by
            simp [userIds]
          rw [hids] at h
          have hw : userWrites (Op.addPost id d :: rest) k = userWrites rest k := by
            simp [userWrites]
          rw [hw]
          exact ih h

theorem postWrites_eq_nil_of_not_mem (ops : List Op) (k : String)
    (h : k ∉ postIds ops) : postWrites ops k = [] := by
  induction ops with
  | nil => rfl
  | cons op rest ih =>
      cases op with
      | addPost id d =>
          have hids : postIds (Op.addPost id d :: rest) = id :: postIds rest := by
            simp [postIds]
          rw [hids] at h
          have hne : ¬ id = k := fun hk => h (hk ▸ List.mem_cons_self _ _)
          have hrest : k ∉ postIds rest := fun hk => h (List.mem_cons_of_mem _ hk)
          have hw : postWrites (Op.addPost id d :: rest) k = postWrites rest k := by
            simp [postWrites, hne]
          rw [hw]
          exact ih hrest
      | addUser id d =>
          have hids : postIds (Op.addUser id d :: rest) = postIds rest := by
            simp [postIds]
          rw [hids] at h
          have hw : postWrites (Op.addUser id d :: rest) k = postWrites rest k := by
            simp [postWrites]
          rw [hw]
          exact ih h

/-- With pairwise-distinct `addUser` identifiers there is at most one write
per key. -/
theorem length_userWrites_le_one (ops : List Op) (k : String)
    (h : (userIds ops).Nodup) : (userWrites ops k).length ≤ 1 := by
  induction ops with
  | nil => simp [userWrites]
  | cons op rest ih =>
      cases op with
      | addUser id d =>
          have hids : userIds (Op.addUser id d :: rest) = id :: userIds rest := by
            simp [userIds]
          rw [hids, List.nodup_cons] at h
          by_cases hk : id = k
          · have hw : userWrites (Op.addUser id d :: rest) k = d :: userWrites rest k := by
              simp [userWrites, hk]
            have hnil : userWrites rest k = [] :=
              userWrites_eq_nil_of_not_mem rest k (hk ▸ h.1)
            rw [hw, hnil]
            simp
          · have hw : userWrites (Op.addUser id d :: rest) k = userWrites rest k := by
              simp [userWrites, hk]
            rw [hw]
            exact ih h.2
      | addPost id d =>
          have hids : userIds (Op.addPost id d :: rest) = userIds rest := by
            simp [userIds]
          rw [hids] at h
          have hw : userWrites (Op.addPost id d :: rest) k = userWrites rest k := by
            simp [userWrites]
          rw [hw]
          exact ih h

theorem length_postWrites_le_one (ops : List Op) (k : String)
    (h : (postIds ops).Nodup) : (postWrites ops k).length ≤ 1 := by
  induction ops with
  | nil => simp [postWrites]
  | cons op rest ih =>
      cases op with
      | addPost id d =>
          have hids : postIds (Op.addPost id d :: rest) = id :: postIds rest := by
            simp [postIds]
          rw [hids, List.nodup_cons] at h
          by_cases hk : id = k
          · have hw : postWrites (Op.addPost id d :: rest) k = d :: postWrites rest k := by
              simp [postWrites, hk]
            have hnil : postWrites rest k = [] :=
              postWrites_eq_nil_of_not_mem rest k (hk ▸ h.1)
            rw [hw, hnil]
            simp
          · have hw : postWrites (Op.addPost id d :: rest) k = postWrites rest k := by
              simp [postWrites, hk]
            rw [hw]
            exact ih h.2
      | addUser id d =>
          have hids : postIds (Op.addUser id d :: rest) = postIds rest := by
            simp [postIds]
          rw [hids] at h
          have hw : postWrites (Op.addUser id d :: rest) k = postWrites rest k := by
            simp [postWrites]
          rw [hw]
          exact ih h

/-- Permuted lists of length at most one are equal. -/
theorem perm_eq_of_length_le_one {α : Type} (l1 l2 : List α)
    (hp : l1.Perm l2) (hl : l1.length ≤ 1) : l1 = l2 := by
  cases l1 with
  | nil => exact (hp.symm.eq_nil).symm
  | cons a t =>
      cases t with
      | nil => exact (List.perm_singleton.mp hp.symm).symm
      | cons b t' => simp at hl

/-- Under pairwise-distinct `addUser` identifiers, the last user write at
every key is invariant under reordering the operations. -/
theorem lastUserWrite_perm (ops1 ops2 : List Op) (hp : ops1.Perm ops2)
    (h : (userIds ops1).Nodup) (k : String) :
    lastUserWrite ops1 k = lastUserWrite ops2 k := by
  have hw : userWrites ops1 k = userWrites ops2 k :=
    perm_eq_of_length_le_one _ _ (hp.filterMap _) (length_userWrites_le_one ops1 k h)
  simp [lastUserWrite, hw]

theorem lastPostWrite_perm (ops1 ops2 : List Op) (hp : ops1.Perm ops2)
    (h : (postIds ops1).Nodup) (k : String) :
    lastPostWrite ops1 k = lastPostWrite ops2 k := by
  have hw : postWrites ops1 k = postWrites ops2 k :=
    perm_eq_of_length_le_one _ _ (hp.filterMap _) (length_postWrites_le_one ops1 k h)
  simp [lastPostWrite, hw]

/-! ## Heap model lemmas -/

theorem getD_set_self {α : Type} (l : List α) (i : Nat) (v d : α)
    (h : i < l.length) : (l.set i v).getD i d = v := by
  induction l generalizing i with
  | nil => simp at h
  | cons a t ih =>
      cases i with
      | zero => rfl
      | succ n =>
          simp only [List.set, List.getD_cons_succ]
          exact ih n (Nat.lt_of_succ_lt_succ h)

theorem getD_set_ne {α : Type} (l : List α) (i j : Nat) (v d : α)
    (h : i ≠ j) : (l.set i v).getD j d = l.getD j d := by
  induction l generalizing i j with
  | nil => simp [List.set]
  | cons a t ih =>
      cases i with
      | zero =>
          cases j with
          | zero => exact absurd rfl h
          | succ m => rfl
      | succ n =>
          cases j with
          | zero => rfl
          | succ m =>
              simp only [List.set, List.getD_cons_succ]
              exact ih n m (fun hh => h (by rw [hh]))

theorem getD_append_self {α : Type} (l : List α) (x d : α) :
    (l ++ [x]).getD l.length d = x := by
  induction l with
  | nil => rfl
  | cons a t ih =>
      simp only [List.cons_append, List.length_cons, List.getD_cons_succ]
      exact ih

/-- `addUser`/`addPost` return `this`: the handle coming out of a call is
the handle that went in. -/
theorem applyOpH_ref (h : Heap) (r : SeederRef) (op : Op) :
    (applyOpH h r op).2 = r := by
  cases op <;> rfl

theorem applyOpH_userLen (h : Heap) (r : SeederRef) (op : Op) :
    (applyOpH h r op).1.userObjs.length = h.userObjs.length := by
  cases op <;> simp [applyOpH, addUserH, addPostH]

theorem applyOpH_postLen (h : Heap) (r : SeederRef) (op : Op) :
    (applyOpH h r op).1.postObjs.length = h.postObjs.length := by
  cases op <;> simp [applyOpH, addUserH, addPostH]

/-- The heap-level effect of one call, observed through the handle, is the
pure-state effect. -/
theorem stateAt_applyOpH (h : Heap) (r : SeederRef) (op : Op)
    (hu : r.usersAddr < h.userObjs.length) (hp : r.postsAddr < h.postObjs.length) :
    stateAt (applyOpH h r op).1 r = applyOp (stateAt h r) op := by
  cases op with
  | addUser id d =>
      simp only [applyOpH, addUserH, stateAt, applyOp, DbSeeder.addUser,
        Heap.readUsers, Heap.readPosts]
      congr 1
      exact getD_set_self _ _ _ _ hu
  | addPost id d =>
      simp only [applyOpH, addPostH, stateAt, applyOp, DbSeeder.addPost,
        Heap.readUsers, Heap.readPosts]
      congr 1
      exact getD_set_self _ _ _ _ hp

/-- Heap/pure correspondence: running operations through a valid handle and
then reading the handle gives exactly the pure-state run. -/
theorem stateAt_runH (ops : List Op) (h : Heap) (r : SeederRef)
    (hu : r.usersAddr < h.userObjs.length) (hp : r.postsAddr < h.postObjs.length) :
    stateAt (runH h r ops) r = runFrom (stateAt h r) ops := by
  induction ops generalizing h with
  | nil => rfl
  | cons op rest ih =>
      simp only [runH, runFrom]
      rw [ih (applyOpH h r op).1
            (by rw [applyOpH_userLen]; exact hu)
            (by rw [applyOpH_postLen]; exact hp),
          stateAt_applyOpH h r op hu hp]

theorem runH_append (h : Heap) (r : SeederRef) (a b : List Op) :
    runH h r (a ++ b) = runH (runH h r a) r b := by
  induction a generalizing h with
  | nil => rfl
  | cons op rest ih => simp only [List.cons_append, List.append_eq, runH, ih]

/-- Chaining through the returned handles is the same as reusing the
original handle: every call returns `this`. -/
theorem chainH_eq (h : Heap) (r : SeederRef) (ops : List Op) :
    chainH h r ops = (runH h r ops, r) := by
  induction ops generalizing h with
  | nil => rfl
  | cons op rest ih =>
      simp only [chainH, runH, applyOpH_ref, ih]

theorem stateAt_allocSeeder (h : Heap) :
    stateAt (h.allocSeeder).1 (h.allocSeeder).2 = DbSeeder.new := by
  simp [Heap.allocSeeder, stateAt, Heap.readUsers, Heap.readPosts,
    DbSeeder.new, getD_append_self]

theorem allocSeeder_usersAddr_lt (h : Heap) :
    (h.allocSeeder).2.usersAddr < (h.allocSeeder).1.userObjs.length := by
  simp [Heap.allocSeeder]

theorem allocSeeder_postsAddr_lt (h : Heap) :
    (h.allocSeeder).2.postsAddr < (h.allocSeeder).1.postObjs.length := by
  simp [Heap.allocSeeder]

/-- Reading the snapshot returned by `transact()` reads the builder's own
collections: the snapshot and the builder share references. -/
theorem readSnapshot_transactH (h : Heap) (r : SeederRef) :
    readSnapshot h (transactH r) = DbSeeder.transact (stateAt h r) := rfl

/-! ## The claims -/

/-- C1: for every finite sequence of `addUser`/`addPost` calls on a fresh
`DbSeeder`, every identifier passed to one of those calls is present as a key
of the corresponding collection of the snapshot returned by `transact()`. -/
theorem transact_contains_every_added_id (ops : List Op) :
    (∀ id d, Op.addUser id d ∈ ops →
      ∃ u, objLookup (DbSeeder.transact (run ops)).users id = some u) ∧
    (∀ id d, Op.addPost id d ∈ ops →
      ∃ p, objLookup (DbSeeder.transact (run ops)).posts id = some p) := by
  constructor
  · intro id d hmem
    have hs := lastUserWrite_isSome_of_mem ops id d hmem
    have hl : objLookup (DbSeeder.transact (run ops)).users id =
        (lastUserWrite ops id).map (mkUser id) := run_users_lookup ops id
    cases hlast : lastUserWrite ops id with
    | none => rw [hlast] at hs; simp at hs
    | some d' =>
        refine ⟨mkUser id d', ?_⟩
        rw [hl, hlast]
        rfl
  · intro id d hmem
    have hs := lastPostWrite_isSome_of_mem ops id d hmem
    have hl : objLookup (DbSeeder.transact (run ops)).posts id =
        (lastPostWrite ops id).map (mkPost id) := run_posts_lookup ops id
    cases hlast : lastPostWrite ops id with
    | none => rw [hlast] at hs; simp at hs
    | some d' =>
        refine ⟨mkPost id d', ?_⟩
        rw [hl, hlast]
        rfl

/-- Witness for C1 at the source's own usage chain. -/
theorem transact_contains_every_added_id_witness :
    (∃ u, objLookup (DbSeeder.transact (run
      [Op.addUser "matt" ⟨"Matt"⟩, Op.addPost "post1" ⟨"Post 2", "matt"⟩])).users
      "matt" = some u) ∧
    (∃ p, objLookup (DbSeeder.transact (run
      [Op.addUser "matt" ⟨"Matt"⟩, Op.addPost "post1" ⟨"Post 2", "matt"⟩])).posts
      "post1" = some p) :=
  ⟨(transact_contains_every_added_id _).1 "matt" ⟨"Matt"⟩ (List.mem_cons_self _ _),
   (transact_contains_every_added_id _).2 "post1" ⟨"Post 2", "matt"⟩
     (List.mem_cons_of_mem _ (List.mem_cons_self _ _))⟩

/-- C2: the source's `usage` chain — `addUser("matt", {name: "Matt"})`,
`addPost("post1", {title: "Post 2", authorId: "matt"})`,
`addPost("post2", {title: "Post", authorId: "matt"})`, `transact()` —
returns a snapshot whose users collection deep-equals
`{matt: {id: "matt", name: "Matt"}}` and whose posts collection deep-equals
`{post1: {id: "post1", title: "Post 2", authorId: "matt"},
post2: {id: "post2", title: "Post", authorId: "matt"}}`. -/
theorem usage_scenario_snapshot :
    snapEquiv
      (DbSeeder.transact (run
        [Op.addUser "matt" ⟨"Matt"⟩,
         Op.addPost "post1" ⟨"Post 2", "matt"⟩,
         Op.addPost "post2" ⟨"Post", "matt"⟩]))
      ⟨[("matt", ⟨"matt", "Matt"⟩)],
       [("post1", ⟨"post1", "Post 2", "matt"⟩),
        ("post2", ⟨"post2", "Post", "matt"⟩)]⟩ := by
  have hexp : DbSeeder.transact (run
      [Op.addUser "matt" ⟨"Matt"⟩,
       Op.addPost "post1" ⟨"Post 2", "matt"⟩,
       Op.addPost "post2" ⟨"Post", "matt"⟩]) =
      ⟨[("matt", ⟨"matt", "Matt"⟩)],
       [("post1", ⟨"post1", "Post 2", "matt"⟩),
        ("post2", ⟨"post2", "Post", "matt"⟩)]⟩ := by decide
  rw [hexp]
  exact ⟨fun k => rfl, fun k => rfl⟩

/-- C3: inserting `(A, X)` then `(A, Z)` into the same category (from any
prior builder state) raises no error — both calls are total — and committing
yields `snapshot[category][A]` equal to `{...Z, id: A}`, with no field of `X`
surviving: the stored record is built from `Z` alone. -/
theorem duplicate_id_overwrites (s : DbSeeder) (A : String)
    (X Z : UserData) (X' Z' : PostData) :
    objLookup (DbSeeder.transact ((s.addUser A X).addUser A Z)).users A =
      some (mkUser A Z) ∧
    objLookup (DbSeeder.transact ((s.addPost A X').addPost A Z')).posts A =
      some (mkPost A Z') := by
  constructor
  · exact objLookup_insert_self _ A (mkUser A Z)
  · exact objLookup_insert_self _ A (mkPost A Z')

/-- C4 counterexample: the snapshot returned by `transact()` is *not*
immutable.  Create a seeder in an empty heap, call `transact()` at once
(snapshot of the empty accumulated state), then call
`addUser("matt", {name: "Matt"})`.  Reading the snapshot now differs from
what it read at the moment of the `transact()` call: the
`users` object it shares with the builder has gained the key `"matt"`. -/
theorem transact_snapshot_not_immutable :
    ¬ snapEquiv
        (readSnapshot
          (runH (Heap.allocSeeder ⟨[], []⟩).1 (Heap.allocSeeder ⟨[], []⟩).2
            [Op.addUser "matt" ⟨"Matt"⟩])
          (transactH (Heap.allocSeeder ⟨[], []⟩).2))
        (readSnapshot (Heap.allocSeeder ⟨[], []⟩).1
          (transactH (Heap.allocSeeder ⟨[], []⟩).2)) := by
  intro h
  exact absurd (h.1 "matt") (by decide)

/-- C4 amended: the snapshot returned by `transact()` aliases the builder's
live collections (the source returns `{users: this.users, posts: this.posts}`
without copying).  Consequently, after further `addUser`/`addPost` calls the
entries observable through the snapshot are those of the *current*
accumulated state — all operations before and after the `transact()` call —
and the snapshot deep-equals the state at the moment of the call only as
long as no further add-operations occur (the `after = []` instance). -/
theorem transact_snapshot_aliases_builder (h : Heap) (before after : List Op) :
    readSnapshot
        (runH (runH (h.allocSeeder).1 (h.allocSeeder).2 before)
          (h.allocSeeder).2 after)
        (transactH (h.allocSeeder).2) =
      DbSeeder.transact (run (before ++ after)) := by
  rw [readSnapshot_transactH, ← runH_append,
      stateAt_runH _ _ _ (allocSeeder_usersAddr_lt h) (allocSeeder_postsAddr_lt h),
      stateAt_allocSeeder]
  rfl

/-- C5 counterexample: with the two accumulated entries targeting the same
category and the same identifier but different data —
`(users, "a", {name: "x"})` then `(users, "a", {name: "y"})` — the snapshot
does not hold `{...X, id: "a"}` for the first entry: the second overwrote
it. -/
theorem commit_shape_fails_on_shared_key :
    ¬ (opEntry
        (DbSeeder.transact (run [Op.addUser "a" ⟨"x"⟩, Op.addUser "a" ⟨"y"⟩]))
        (Op.addUser "a" ⟨"x"⟩) ∧
       opEntry
        (DbSeeder.transact (run [Op.addUser "a" ⟨"x"⟩, Op.addUser "a" ⟨"y"⟩]))
        (Op.addUser "a" ⟨"y"⟩)) := by
  intro h
  have h1 := h.1
  simp only [opEntry] at h1
  exact absurd h1 (by decide)

/-- C5 amended: after accumulating entries `(C1, A, X)` and `(C2, B, Y)` in
that order, with the two entries not sharing both category and identifier,
`transact()` yields a snapshot with `snapshot[C1][A] = {...X, id: A}` and
`snapshot[C2][B] = {...Y, id: B}`; when category and identifier coincide the
later entry wins (see the last-write-wins results).  `transact()` performs no
mutation, so any number of further calls on the unmodified builder returns
the same snapshot — in this embedding it is a function of the builder
state. -/
theorem commit_shape_idempotent (o1 o2 : Op) (hdist : opKey o1 ≠ opKey o2) :
    opEntry (DbSeeder.transact (run [o1, o2])) o1 ∧
    opEntry (DbSeeder.transact (run [o1, o2])) o2 := by
  cases o1 with
  | addUser a da =>
      cases o2 with
      | addUser b db =>
          have hab : ¬ a = b := fun hk => hdist (by simp [opKey, hk])
          constructor
          · show objLookup (objInsert (objInsert [] a (mkUser a da)) b (mkUser b db)) a =
              some (mkUser a da)
            rw [objLookup_insert_ne _ b a (mkUser b db) hab]
            exact objLookup_insert_self _ a (mkUser a da)
          · exact objLookup_insert_self _ b (mkUser b db)
      | addPost b db =>
          exact ⟨objLookup_insert_self _ a (mkUser a da),
                 objLookup_insert_self _ b (mkPost b db)⟩
  | addPost a da =>
      cases o2 with
      | addUser b db =>
          exact ⟨objLookup_insert_self _ a (mkPost a da),
                 objLookup_insert_self _ b (mkUser b db)⟩
      | addPost b db =>
          have hab : ¬ a = b := fun hk => hdist (by simp [opKey, hk])
          constructor
          · show objLookup (objInsert (objInsert [] a (mkPost a da)) b (mkPost b db)) a =
              some (mkPost a da)
            rw [objLookup_insert_ne _ b a (mkPost b db) hab]
            exact objLookup_insert_self _ a (mkPost a da)
          · exact objLookup_insert_self _ b (mkPost b db)

/-- Witness for the amended C5 at the concrete entries
`(users, "a", {name: "x"})` and `(posts, "b", {title: "t", authorId: "a"})`. -/
theorem commit_shape_idempotent_witness :
    opEntry (DbSeeder.transact (run
      [Op.addUser "a" ⟨"x"⟩, Op.addPost "b" ⟨"t", "a"⟩])) (Op.addUser "a" ⟨"x"⟩) ∧
    opEntry (DbSeeder.transact (run
      [Op.addUser "a" ⟨"x"⟩, Op.addPost "b" ⟨"t", "a"⟩])) (Op.addPost "b" ⟨"t", "a"⟩) :=
  commit_shape_idempotent (Op.addUser "a" ⟨"x"⟩) (Op.addPost "b" ⟨"t", "a"⟩) (by decide)

/-- C6: two orderings of the same finite multiset of add-operations with
pairwise-distinct identifiers within each category produce deep-equal
snapshots; and for any sequence whatsoever (repeated identifiers included),
the snapshot holds, under each key, the record built from the data of the
*last* operation targeting that key in its category. -/
theorem snapshot_order_independence (ops1 ops2 : List Op) (k : String) :
    (ops1.Perm ops2 → (userIds ops1).Nodup → (postIds ops1).Nodup →
      snapEquiv (DbSeeder.transact (run ops1)) (DbSeeder.transact (run ops2))) ∧
    (objLookup (DbSeeder.transact (run ops1)).users k =
        (lastUserWrite ops1 k).map (mkUser k) ∧
     objLookup (DbSeeder.transact (run ops1)).posts k =
        (lastPostWrite ops1 k).map (mkPost k)) := by
  refine ⟨fun hperm hu hpp => ⟨fun k' => ?_, fun k' => ?_⟩,
          run_users_lookup ops1 k, run_posts_lookup ops1 k⟩
  · have h1 := run_users_lookup ops1 k'
    have h2 := run_users_lookup ops2 k'
    have hlast := lastUserWrite_perm ops1 ops2 hperm hu k'
    show objLookup (run ops1).users k' = objLookup (run ops2).users k'
    rw [h1, h2, hlast]
  · have h1 := run_posts_lookup ops1 k'
    have h2 := run_posts_lookup ops2 k'
    have hlast := lastPostWrite_perm ops1 ops2 hperm hpp k'
    show objLookup (run ops1).posts k' = objLookup (run ops2).posts k'
    rw [h1, h2, hlast]

/-- Witness for C6: swapping a user insertion and a post insertion yields a
deep-equal snapshot, and the last-write characterization at key `"a"`. -/
theorem snapshot_order_independence_witness :
    snapEquiv
      (DbSeeder.transact (run [Op.addUser "a" ⟨"x"⟩, Op.addPost "b" ⟨"t", "a"⟩]))
      (DbSeeder.transact (run [Op.addPost "b" ⟨"t", "a"⟩, Op.addUser "a" ⟨"x"⟩])) ∧
    (objLookup (DbSeeder.transact (run
        [Op.addUser "a" ⟨"x"⟩, Op.addPost "b" ⟨"t", "a"⟩])).users "a" =
      (lastUserWrite [Op.addUser "a" ⟨"x"⟩, Op.addPost "b" ⟨"t", "a"⟩] "a").map
        (mkUser "a") ∧
     objLookup (DbSeeder.transact (run
        [Op.addUser "a" ⟨"x"⟩, Op.addPost "b" ⟨"t", "a"⟩])).posts "a" =
      (lastPostWrite [Op.addUser "a" ⟨"x"⟩, Op.addPost "b" ⟨"t", "a"⟩] "a").map
        (mkPost "a")) :=
  ⟨(snapshot_order_independence
      [Op.addUser "a" ⟨"x"⟩, Op.addPost "b" ⟨"t", "a"⟩]
      [Op.addPost "b" ⟨"t", "a"⟩, Op.addUser "a" ⟨"x"⟩] "a").1
      (List.Perm.swap _ _ _) (by decide) (by decide),
   (snapshot_order_independence
      [Op.addUser "a" ⟨"x"⟩, Op.addPost "b" ⟨"t", "a"⟩]
      [Op.addPost "b" ⟨"t", "a"⟩, Op.addUser "a" ⟨"x"⟩] "a").2⟩

/-- C7: categories are independent.  `addUser` leaves the posts collection
untouched and `addPost` leaves the users collection untouched; consequently,
for every operation sequence, the users collection of the snapshot is exactly
the one produced by the subsequence of `addUser` calls, and the posts
collection exactly the one produced by the subsequence of `addPost` calls. -/
theorem categories_independent (s : DbSeeder) (ops : List Op) (id : String)
    (du : UserData) (dp : PostData) :
    (s.addUser id du).posts = s.posts ∧
    (s.addPost id dp).users = s.users ∧
    (DbSeeder.transact (run ops)).users =
      (run (ops.filter Op.isUser)).users ∧
    (DbSeeder.transact (run ops)).posts =
      (run (ops.filter Op.isPost)).posts :=
  ⟨rfl, rfl, runFrom_users_filter DbSeeder.new ops, runFrom_posts_filter DbSeeder.new ops⟩

/-- C8: `transact()` on a newly constructed `DbSeeder` with no add calls
returns the snapshot `{users: {}, posts: {}}`. -/
theorem transact_of_new_is_empty :
    DbSeeder.transact (run []) = ⟨[], []⟩ ∧ DbSeeder.transact DbSeeder.new = ⟨[], []⟩ :=
  ⟨rfl, rfl⟩

/-- C9: key/id coherence.  In every builder state reachable from a fresh
`DbSeeder`, and in the snapshot `transact()` returns from it, every record
stored under key `k` has its `id` field equal to `k` (the identifier argument
supplies the record's `id` field). -/
theorem stored_id_matches_key (ops : List Op) (k : String) (u : User) (p : Post) :
    (objLookup (run ops).users k = some u → u.id = k) ∧
    (objLookup (run ops).posts k = some p → p.id = k) ∧
    (objLookup (DbSeeder.transact (run ops)).users k = some u → u.id = k) ∧
    (objLookup (DbSeeder.transact (run ops)).posts k = some p → p.id = k) := by
  have hu : objLookup (run ops).users k = some u → u.id = k := by
    rw [run_users_lookup]
    cases lastUserWrite ops k with
    | none => intro h; simp at h
    | some d =>
        intro h
        have : mkUser k d = u := by simpa using h
        rw [← this]
        rfl
  have hp : objLookup (run ops).posts k = some p → p.id = k := by
    rw [run_posts_lookup]
    cases lastPostWrite ops k with
    | none => intro h; simp at h
    | some d =>
        intro h
        have : mkPost k d = p := by simpa using h
        rw [← this]
        rfl
  exact ⟨hu, hp, hu, hp⟩

/-- Witness for C9 at a two-operation chain inserting a user and a post both
keyed `"matt"`. -/
theorem stored_id_matches_key_witness :
    (⟨"matt", "Matt"⟩ : User).id = "matt" ∧ (⟨"matt", "T", "matt"⟩ : Post).id = "matt" :=
  ⟨(stored_id_matches_key
      [Op.addUser "matt" ⟨"Matt"⟩, Op.addPost "matt" ⟨"T", "matt"⟩]
      "matt" ⟨"matt", "Matt"⟩ ⟨"matt", "T", "matt"⟩).1 (by decide),
   (stored_id_matches_key
      [Op.addUser "matt" ⟨"Matt"⟩, Op.addPost "matt" ⟨"T", "matt"⟩]
      "matt" ⟨"matt", "Matt"⟩ ⟨"matt", "T", "matt"⟩).2.1 (by decide)⟩

/-- C10: `addUser` and `addPost` return the very same builder handle they
were called on (`return this`), not a copy; hence running a chain through the
returned intermediate handles mutates exactly the same accumulator as reusing
one saved handle, and the final handle is still the original one. -/
theorem add_returns_same_handle (h : Heap) (r : SeederRef) (id : String)
    (du : UserData) (dp : PostData) (ops : List Op) :
    (addUserH h r id du).2 = r ∧
    (addPostH h r id dp).2 = r ∧
    chainH h r ops = (runH h r ops, r) :=
  ⟨rfl, rfl, chainH_eq h r ops⟩

end DbSeederSpec
